import Mathlib

/-!
Verification of the file-classification, diff-filtering and message-chunking
logic of the review bot (review_bot.py).  Text is modelled as List Char;
Python string operations used by the script (startswith, rfind, lstrip,
split, os.path.splitext) are embedded below, faithful to CPython semantics
for the ASCII inputs the script handles.
-/

/-- Whitespace test used by Python's str.lstrip, restricted to the ASCII
whitespace characters: space, tab, newline, carriage return, vertical tab,
form feed. -/
def isPySpace (c : Char) : Bool :=
  c == ' ' || c == '\t' || c == '\n' || c == '\r' || c == '\x0b' || c == '\x0c'

/-- Python str.lstrip(): drop the leading run of whitespace characters. -/
def lstrip (l : List Char) : List Char :=
  l.dropWhile isPySpace

/-- Python str.startswith(p): the first argument is the candidate prefix. -/
def startsWith : List Char → List Char → Bool
  | [], _ => true
  | _ :: _, [] => false
  | p :: ps, c :: cs => p == c && startsWith ps cs

/-- The suffix of l strictly after the last occurrence of the character c,
or l itself when c does not occur in l. -/
def afterLastChar (c : Char) (l : List Char) : List Char :=
  (l.reverse.takeWhile (fun a => a != c)).reverse

/-- Extension part of os.path.splitext (review_bot.py line 59): the basename
is the text after the last '/', and the extension starts at the last '.' of
the basename provided some earlier character of the basename is not a dot
(so dotfiles such as ".gitignore" have empty extension).  Includes the dot. -/
def extOf (p : List Char) : List Char :=
  let b := afterLastChar '/' p
  let m := b.dropWhile (fun a => a == '.')
  if m.contains '.' then '.' :: afterLastChar '.' b else []

/-- resource_extensions set of review_bot.py lines 44-53. -/
def resource_extensions : List (List Char) :=
  [".png".toList, ".jpg".toList, ".jpeg".toList, ".gif".toList, ".bmp".toList,
   ".tiff".toList, ".webp".toList, ".ico".toList, ".svg".toList,
   ".mp3".toList, ".wav".toList, ".ogg".toList, ".m4a".toList, ".aac".toList,
   ".wma".toList, ".flac".toList, ".aiff".toList, ".mid".toList, ".midi".toList,
   ".unity3d".toList, ".bank".toList, ".fsb".toList, ".vag".toList, ".xma".toList,
   ".xwb".toList,
   ".mp4".toList, ".avi".toList, ".mov".toList, ".wmv".toList, ".flv".toList,
   ".webm".toList,
   ".unity".toList, ".prefab".toList, ".asset".toList, ".mat".toList, ".anim".toList,
   ".controller".toList, ".mask".toList, ".meta".toList,
   ".fbx".toList, ".obj".toList, ".blend".toList, ".tga".toList, ".psd".toList,
   ".ai".toList, ".pdf".toList,
   ".zip".toList, ".rar".toList, ".7z".toList, ".tar".toList, ".gz".toList,
   ".exe".toList, ".dll".toList, ".so".toList, ".dylib".toList, ".bin".toList]

/-- resource_dirs set of review_bot.py lines 54-58. -/
def resource_dirs : List (List Char) :=
  ["Assets/Resources".toList, "Assets/StreamingAssets".toList,
   "Assets/Textures".toList, "Assets/Models".toList, "Assets/Animations".toList,
   "Assets/Audio".toList, "Assets/Scenes".toList, "Assets/Prefabs".toList,
   "Assets/Materials".toList, "Assets/Sprites".toList,
   "Library".toList, "Temp".toList, "Logs".toList]

/-- is_resource_file (review_bot.py lines 42-65): true iff the lower-cased
splitext extension is in resource_extensions, or the filename starts with one
of the resource_dirs prefixes (plain string prefix match). -/
def is_resource_file (filename : List Char) : Bool :=
  if resource_extensions.contains ((extOf filename).map Char.toLower) then true
  else resource_dirs.any (fun d => startsWith d filename)

/-- Python str.split('\n'): n newline characters yield n+1 parts. -/
def splitNL : List Char → List (List Char)
  | [] => [[]]
  | c :: rest =>
    if c = '\n' then [] :: splitNL rest
    else
      match splitNL rest with
      | [] => [[c]]
      | p :: ps => (c :: p) :: ps

/-- Python '\n'.join(parts). -/
def joinNL : List (List Char) → List Char
  | [] => []
  | [x] => x
  | x :: y :: xs => x ++ '\n' :: joinNL (y :: xs)

/-- The section-header marker 'diff --git' (review_bot.py line 130). -/
def headerB : List Char := "diff --git".toList

/-- The separator ' b/' used for path extraction (review_bot.py line 133). -/
def markerB : List Char := " b/".toList

/-- Python line.split(' b/'): left-to-right scan consuming each occurrence
of the three-character separator; a line without the separator yields the
one-element list containing the line. -/
def splitMarker : List Char → List (List Char)
  | [] => [[]]
  | ' ' :: 'b' :: '/' :: rest => [] :: splitMarker rest
  | c :: rest =>
    match splitMarker rest with
    | [] => [[c]]
    | p :: ps => (c :: p) :: ps

/-- Last element of a list with a default (Python's [-1] on a list that is
never empty). -/
def lastD : List (List Char) → List Char → List Char
  | [], d => d
  | [a], _ => a
  | _ :: b :: rest, d => lastD (b :: rest) d

/-- review_bot.py line 133: file_path = line.split(' b/')[-1].  split always
returns a non-empty list, so the default is never used. -/
def extract_file_path (line : List Char) : List Char :=
  lastD (splitMarker line) line

/-- One step of the current_file_is_resource state update (review_bot.py
lines 130-136): a header line re-classifies using the extracted path; any
other line leaves the state unchanged.  The except-IndexError branch of the
source is unreachable because split()[-1] never raises. -/
def filter_step_state (res : Bool) (line : List Char) : Bool :=
  if startsWith headerB line then is_resource_file (extract_file_path line) else res

/-- The filtering loop of get_code_diff (review_bot.py lines 127-139): keep a
line iff the state after processing the line is non-resource. -/
def filterLines : Bool → List (List Char) → List (List Char)
  | _, [] => []
  | res, line :: rest =>
    if filter_step_state res line then filterLines (filter_step_state res line) rest
    else line :: filterLines (filter_step_state res line) rest

/-- The pure diff-filtering performed by get_code_diff (review_bot.py lines
126-141): split on newlines, run the filtering loop starting in the
non-resource state, join survivors with newlines. -/
def get_code_diff_filter (diff : List Char) : List Char :=
  joinNL (filterLines false (splitNL diff))

/-- Precondition shape for claim C5: the very first line of the diff is a
'diff --git' section header (no lines precede the first section). -/
def firstLineIsHeader (diff : List Char) : Bool :=
  match splitNL diff with
  | [] => false
  | f :: _ => startsWith headerB f

/-- Index of the last '\n' in a list, if any (Python str.rfind on the whole
list). -/
def rfindNLlist : List Char → Option Nat
  | [] => none
  | c :: rest =>
    match rfindNLlist rest with
    | some i => some (i + 1)
    | none => if c = '\n' then some 0 else none

/-- review_bot.py line 198: review_text.rfind('\n', 0, max_length) — the last
newline position strictly below maxLen, if any. -/
def rfind_nl (text : List Char) (maxLen : Nat) : Option Nat :=
  rfindNLlist (text.take maxLen)

/-- The while-loop of split_review_into_messages (review_bot.py lines
196-203), with explicit fuel.  Each iteration: split_pos is the last newline
below maxLen, defaulting to maxLen (forced hard cut); emit text[:split_pos];
continue with text[split_pos:].lstrip().  For maxLen >= 1 every iteration
strictly shortens the text, so fuel = text.length makes the fuel bound
unreachable (proved below); the fuel-exhausted case emits the remainder. -/
def splitGo (maxLen : Nat) : Nat → List Char → List (List Char)
  | 0, text => [text]
  | fuel + 1, text =>
    if maxLen < text.length then
      (text.take ((rfind_nl text maxLen).getD maxLen)) ::
        splitGo maxLen fuel (lstrip (text.drop ((rfind_nl text maxLen).getD maxLen)))
    else [text]

/-- split_review_into_messages (review_bot.py lines 194-204).  The source's
default for maxLen is 1900. -/
def split_review_into_messages (text : List Char) (maxLen : Nat) : List (List Char) :=
  splitGo maxLen text.length text

/-- True iff no iteration of the paginator loop takes the forced-hard-cut
branch (rfind returning -1, review_bot.py lines 199-200). -/
def no_forced_cut (maxLen : Nat) : Nat → List Char → Bool
  | 0, _ => true
  | fuel + 1, text =>
    if maxLen < text.length then
      match rfind_nl text maxLen with
      | some pos => no_forced_cut maxLen fuel (lstrip (text.drop pos))
      | none => false
    else true

/-- True iff every iteration of the paginator loop splits at a newline and
the post-split lstrip removes exactly that single newline (the character
after the split newline, if any, is not whitespace). -/
def clean_splits (maxLen : Nat) : Nat → List Char → Bool
  | 0, _ => true
  | fuel + 1, text =>
    if maxLen < text.length then
      match rfind_nl text maxLen with
      | some pos =>
        (lstrip (text.drop pos) == text.drop (pos + 1)) &&
          clean_splits maxLen fuel (lstrip (text.drop pos))
      | none => false
    else true

/-- The fields of a push event payload consulted by main before the diff
fetch (review_bot.py lines 224-243): the deleted flag, the optional 'before'
revision, and whether head_commit details are present. -/
structure PushPayload where
  deleted : Bool
  before : Option (List Char)
  head_commit : Option Unit

/-- How far main's push branch gets before the diff fetch: each constructor
below fetchDiff is an early return that happens strictly before
get_code_diff is called (review_bot.py line 260) and hence before any
Discord notification (lines 277-284). -/
inductive PushStop where
  | deletedBranch : PushStop
  | noBase : PushStop
  | noHeadCommit : PushStop
  | tokenFailed : PushStop
  | fetchDiff : PushStop
deriving DecidableEq

/-- The seven-character prefix tested by base_commit.startswith('0000000')
(review_bot.py line 234). -/
def zeros7 : List Char := "0000000".toList

/-- The guard sequence of main's push branch (review_bot.py lines 224-260),
in source order: deleted check (line 226), base-revision check (line 234:
falsy 'before' or the '0000000' prefix), head_commit presence (line 241),
API-token test (line 254, its outcome abstracted as token_ok), and only then
the diff fetch (line 260). -/
def push_stage (p : PushPayload) (token_ok : Bool) : PushStop :=
  if p.deleted then PushStop.deletedBranch
  else if (match p.before with
           | none => true
           | some b => b.isEmpty || startsWith zeros7 b) then PushStop.noBase
  else match p.head_commit with
       | none => PushStop.noHeadCommit
       | some _ => if token_ok then PushStop.fetchDiff else PushStop.tokenFailed

/-! ### Helper lemmas -/

theorem lstrip_length_le (l : List Char) : (lstrip l).length ≤ l.length := by
  induction l with
  | nil => simp [lstrip]
  | cons c rest ih =>
    simp only [lstrip, List.dropWhile] at *
    cases isPySpace c with
    | false => simp
    | true => simpa using Nat.le_succ_of_le ih

theorem lstrip_cons_space (c : Char) (l : List Char) (h : isPySpace c = true) :
    lstrip (c :: l) = lstrip l := by
  simp [lstrip, List.dropWhile, h]

theorem get?_lt {l : List Char} {i : Nat} {c : Char} (h : l.get? i = some c) :
    i < l.length := by
  induction l generalizing i with
  | nil => simp [List.get?] at h
  | cons a rest ih =>
    cases i with
    | zero => simp
    | succ j =>
      simp only [List.get?] at h
      exact Nat.succ_lt_succ (ih h)

theorem take_get? {l : List Char} {n i : Nat} {c : Char}
    (h : (l.take n).get? i = some c) : l.get? i = some c := by
  induction l generalizing n i with
  | nil => simp [List.take] at h
  | cons a rest ih =>
    cases n with
    | zero => simp [List.take, List.get?] at h
    | succ m =>
      cases i with
      | zero => simpa [List.take, List.get?] using h
      | succ j =>
        simp only [List.take, List.get?] at h ⊢
        exact ih h

theorem drop_eq_cons_of_get? {l : List Char} {i : Nat} {c : Char}
    (h : l.get? i = some c) : l.drop i = c :: l.drop (i + 1) := by
  induction l generalizing i with
  | nil => simp [List.get?] at h
  | cons a rest ih =>
    cases i with
    | zero =>
      simp only [List.get?, Option.some.injEq] at h
      subst h
      simp
    | succ j =>
      simp only [List.get?] at h
      simpa [List.drop] using ih h

theorem rfindNLlist_spec (l : List Char) (i : Nat) (h : rfindNLlist l = some i) :
    l.get? i = some '\n' := by
  induction l generalizing i with
  | nil => simp [rfindNLlist] at h
  | cons c rest ih =>
    simp only [rfindNLlist] at h
    cases hr : rfindNLlist rest with
    | some j =>
      rw [hr] at h
      simp only [Option.some.injEq] at h
      subst h
      simpa [List.get?] using ih j hr
    | none =>
      rw [hr] at h
      by_cases hc : c = '\n'
      · rw [if_pos hc] at h
        simp only [Option.some.injEq] at h
        subst h
        simp [List.get?, hc]
      · rw [if_neg hc] at h
        exact absurd h (by simp)

theorem rfind_nl_spec {text : List Char} {maxLen pos : Nat}
    (h : rfind_nl text maxLen = some pos) :
    pos < maxLen ∧ text.get? pos = some '\n' := by
  unfold rfind_nl at h
  have hg := rfindNLlist_spec _ _ h
  constructor
  · have h1 := get?_lt hg
    have h2 : (text.take maxLen).length ≤ maxLen := by
      rw [List.length_take]
      exact Nat.min_le_left _ _
    omega
  · exact take_get? hg

theorem split_progress {maxLen : Nat} (h1 : 1 ≤ maxLen) {text : List Char}
    (hgt : maxLen < text.length) :
    (lstrip (text.drop ((rfind_nl text maxLen).getD maxLen))).length < text.length := by
  cases hr : rfind_nl text maxLen with
  | none =>
    simp only [Option.getD]
    have h2 := lstrip_length_le (text.drop maxLen)
    rw [List.length_drop] at h2
    omega
  | some pos =>
    obtain ⟨hp, hg⟩ := rfind_nl_spec hr
    simp only [Option.getD]
    rw [drop_eq_cons_of_get? hg, lstrip_cons_space _ _ (by decide)]
    have h2 := lstrip_length_le (text.drop (pos + 1))
    rw [List.length_drop] at h2
    have h3 := get?_lt hg
    omega

theorem take_pos_le (maxLen : Nat) (text : List Char) :
    (text.take ((rfind_nl text maxLen).getD maxLen)).length ≤ maxLen := by
  cases hr : rfind_nl text maxLen with
  | none =>
    simp only [Option.getD]
    rw [List.length_take]
    exact Nat.min_le_left _ _
  | some pos =>
    have hp := (rfind_nl_spec hr).1
    simp only [Option.getD]
    rw [List.length_take]
    have := Nat.min_le_left pos text.length
    omega

theorem splitGo_chunk_le {maxLen : Nat} (h1 : 1 ≤ maxLen) :
    ∀ fuel (text : List Char), text.length ≤ fuel + maxLen →
      ∀ chunk ∈ splitGo maxLen fuel text, chunk.length ≤ maxLen := by
  intro fuel
  induction fuel with
  | zero =>
    intro text hlen chunk hc
    simp only [splitGo, List.mem_singleton] at hc
    subst hc
    omega
  | succ f ih =>
    intro text hlen chunk hc
    by_cases hgt : maxLen < text.length
    · simp only [splitGo, if_pos hgt, List.mem_cons] at hc
      rcases hc with rfl | hmem
      · exact take_pos_le maxLen text
      · have hp := split_progress h1 hgt
        exact ih _ (by omega) chunk hmem
    · simp only [splitGo, if_neg hgt, List.mem_singleton] at hc
      subst hc
      omega

theorem splitGo_fuel_eq {maxLen : Nat} (h1 : 1 ≤ maxLen) :
    ∀ f g (text : List Char), text.length ≤ f + maxLen → text.length ≤ g + maxLen →
      splitGo maxLen f text = splitGo maxLen g text := by
  intro f
  induction f with
  | zero =>
    intro g text hf hg
    have hle : ¬ maxLen < text.length := by omega
    cases g with
    | zero => rfl
    | succ n => simp [splitGo, hle]
  | succ f ih =>
    intro g text hf hg
    by_cases hgt : maxLen < text.length
    · cases g with
      | zero => omega
      | succ n =>
        simp only [splitGo, if_pos hgt]
        have hp := split_progress h1 hgt
        rw [ih n _ (by omega) (by omega)]
    · cases g with
      | zero => simp [splitGo, hgt]
      | succ n => simp [splitGo, hgt]

theorem splitGo_ne_nil (maxLen fuel : Nat) (text : List Char) :
    splitGo maxLen fuel text ≠ [] := by
  cases fuel with
  | zero => simp [splitGo]
  | succ f => by_cases h : maxLen < text.length <;> simp [splitGo, h]

theorem joinNL_cons (x : List Char) (l : List (List Char)) (h : l ≠ []) :
    joinNL (x :: l) = x ++ '\n' :: joinNL l := by
  cases l with
  | nil => exact absurd rfl h
  | cons y ys => rfl

theorem splitGo_roundtrip (maxLen : Nat) :
    ∀ fuel (text : List Char), clean_splits maxLen fuel text = true →
      joinNL (splitGo maxLen fuel text) = text := by
  intro fuel
  induction fuel with
  | zero => intro text _; rfl
  | succ f ih =>
    intro text hc
    by_cases hgt : maxLen < text.length
    · simp only [clean_splits, if_pos hgt] at hc
      cases hr : rfind_nl text maxLen with
      | none => rw [hr] at hc; exact absurd hc (by simp)
      | some pos =>
        rw [hr] at hc
        rw [Bool.and_eq_true] at hc
        have hnext : lstrip (text.drop pos) = text.drop (pos + 1) := eq_of_beq hc.1
        obtain ⟨hp, hg⟩ := rfind_nl_spec hr
        simp only [splitGo, if_pos hgt, hr, Option.getD]
        rw [joinNL_cons _ _ (splitGo_ne_nil _ _ _), ih _ hc.2, hnext]
        calc text.take pos ++ '\n' :: text.drop (pos + 1)
            = text.take pos ++ text.drop pos := by rw [drop_eq_cons_of_get? hg]
          _ = text := List.take_append_drop pos text
    · simp [splitGo, hgt, joinNL]

theorem splitNL_ne_nil (l : List Char) : splitNL l ≠ [] := by
  cases l with
  | nil => simp [splitNL]
  | cons c rest =>
    simp only [splitNL]
    by_cases h : c = '\n'
    · simp [h]
    · simp only [if_neg h]
      cases splitNL rest <;> simp

theorem joinNL_splitNL (l : List Char) : joinNL (splitNL l) = l := by
  induction l with
  | nil => rfl
  | cons c rest ih =>
    simp only [splitNL]
    by_cases h : c = '\n'
    · rw [if_pos h]
      cases e : splitNL rest with
      | nil => exact absurd e (splitNL_ne_nil rest)
      | cons p ps =>
        rw [e] at ih
        subst h
        simpa [joinNL] using ih
    · rw [if_neg h]
      cases e : splitNL rest with
      | nil => exact absurd e (splitNL_ne_nil rest)
      | cons p ps =>
        rw [e] at ih
        cases ps with
        | nil => simpa [joinNL] using ih
        | cons q qs =>
          simp only [joinNL] at ih ⊢
          rw [List.cons_append, ih]

theorem filterLines_keep (lines : List (List Char))
    (h : ∀ line ∈ lines, startsWith headerB line = true →
        is_resource_file (extract_file_path line) = false) :
    filterLines false lines = lines := by
  induction lines with
  | nil => rfl
  | cons line rest ih =>
    have hstep : filter_step_state false line = false := by
      unfold filter_step_state
      by_cases hh : startsWith headerB line = true
      · simp [hh, h line (List.mem_cons_self _ _) hh]
      · simp [hh]
    simp only [filterLines, hstep, Bool.false_eq_true, if_false]
    rw [ih (fun l hl hh => h l (List.mem_cons_of_mem _ hl) hh)]

theorem filterLines_all_res (lines : List (List Char))
    (h : ∀ line ∈ lines, startsWith headerB line = true →
        is_resource_file (extract_file_path line) = true) :
    filterLines true lines = [] := by
  induction lines with
  | nil => rfl
  | cons line rest ih =>
    have hstep : filter_step_state true line = true := by
      unfold filter_step_state
      by_cases hh : startsWith headerB line = true
      · simp [hh, h line (List.mem_cons_self _ _) hh]
      · simp [hh]
    simp only [filterLines, hstep, if_true]
    exact ih (fun l hl hh => h l (List.mem_cons_of_mem _ hl) hh)

/-! ### Claim theorems -/

/-- Claim C1 (counterexample): the round-trip property fails even when every
split point lands on a line break.  For text "a\n  bcd" and maxLen 4 the
only split is at the newline (no forced cut anywhere), yet the post-split
lstrip also removes the two spaces after the newline, so re-joining the
chunks with a single newline does not reproduce the input. -/
theorem roundtrip_counterexample :
    1 ≤ 4
    ∧ no_forced_cut 4 ("a\n  bcd".toList).length ("a\n  bcd".toList) = true
    ∧ joinNL (split_review_into_messages ("a\n  bcd".toList) 4) ≠ "a\n  bcd".toList := by
  decide

/-- Claim C1 (amended): for every text and maxLen >= 1, if every iteration of
the paginator splits at a newline (no forced hard cut) and the whitespace
removed immediately after each split is exactly that single newline (the
character following the split newline, if any, is not whitespace), then
re-joining the chunks with a single newline between consecutive chunks
reproduces the original text exactly. -/
theorem split_review_roundtrip_clean (maxLen : Nat) (h : 1 ≤ maxLen)
    (text : List Char) (hc : clean_splits maxLen text.length text = true) :
    joinNL (split_review_into_messages text maxLen) = text := by
  unfold split_review_into_messages
  exact splitGo_roundtrip maxLen text.length text hc

theorem split_review_roundtrip_clean_w :
    1 ≤ 4 ∧ joinNL (split_review_into_messages ("abc\nde".toList) 4) = "abc\nde".toList :=
  ⟨by decide, split_review_roundtrip_clean 4 (by decide) ("abc\nde".toList) (by decide)⟩

/-- Claim C2 (code evaluated at the failing input): the header line
"diff --git a/x.png" is malformed — it has no ' b/' marker, so no path can
be extracted from text following the second file marker (split returns the
whole line as its only element).  The claim says such a section defaults to
non-resource and all its lines are kept; the code instead classifies the
entire header line, whose '.png' suffix makes it a resource, and drops the
section: the output is empty although the input is not. -/
theorem malformed_png_header_dropped :
    splitMarker ("diff --git a/x.png".toList) = [("diff --git a/x.png".toList)]
    ∧ get_code_diff_filter ("diff --git a/x.png".toList) = []
    ∧ ("diff --git a/x.png".toList) ≠ [] := by
  decide

/-- Claim C3: for every text and maxLen >= 1 the paginator terminates — the
fuelled loop is stable once the fuel reaches the text length, every returned
chunk has length at most maxLen, and every iteration of the loop strictly
shortens the remaining text. -/
theorem split_review_termination_and_bound (maxLen : Nat) (h : 1 ≤ maxLen)
    (text : List Char) :
    (∀ fuel, text.length ≤ fuel →
        splitGo maxLen fuel text = split_review_into_messages text maxLen)
    ∧ (∀ chunk ∈ split_review_into_messages text maxLen, chunk.length ≤ maxLen)
    ∧ (maxLen < text.length →
        (lstrip (text.drop ((rfind_nl text maxLen).getD maxLen))).length < text.length) := by
  refine ⟨?_, ?_, ?_⟩
  · intro fuel hf
    unfold split_review_into_messages
    exact splitGo_fuel_eq h fuel text.length text (by omega) (by omega)
  · intro chunk hc
    exact splitGo_chunk_le h text.length text (by omega) chunk hc
  · intro hgt
    exact split_progress h hgt

theorem split_review_termination_and_bound_w :
    1 ≤ 4 ∧ splitGo 4 10 ("a\nbcdef".toList) = split_review_into_messages ("a\nbcdef".toList) 4 :=
  ⟨by decide, (split_review_termination_and_bound 4 (by decide) ("a\nbcdef".toList)).1 10 (by decide)⟩

/-- Claim C4: a diff none of whose 'diff --git' section headers names a
resource path is returned by the filter completely unchanged. -/
theorem get_code_diff_keeps_nonresource (diff : List Char)
    (h : ∀ line ∈ splitNL diff, startsWith headerB line = true →
        is_resource_file (extract_file_path line) = false) :
    get_code_diff_filter diff = diff := by
  unfold get_code_diff_filter
  rw [filterLines_keep _ h, joinNL_splitNL]

theorem get_code_diff_keeps_nonresource_w :
    get_code_diff_filter ("diff --git a/src/app.py b/src/app.py\n+print(1)".toList)
      = ("diff --git a/src/app.py b/src/app.py\n+print(1)".toList) :=
  get_code_diff_keeps_nonresource ("diff --git a/src/app.py b/src/app.py\n+print(1)".toList)
    (by decide)

/-- Claim C5: a diff whose first line is a 'diff --git' header and all of
whose section headers name resource paths filters to the empty string —
every line, the header lines included, is dropped. -/
theorem get_code_diff_drops_all_resource (diff : List Char)
    (h1 : firstLineIsHeader diff = true)
    (h2 : ∀ line ∈ splitNL diff, startsWith headerB line = true →
        is_resource_file (extract_file_path line) = true) :
    get_code_diff_filter diff = [] := by
  unfold get_code_diff_filter
  unfold firstLineIsHeader at h1
  cases e : splitNL diff with
  | nil => rw [e] at h1; simp at h1
  | cons f r =>
    rw [e] at h1 h2
    replace h1 : startsWith headerB f = true := h1
    have hres : is_resource_file (extract_file_path f) = true :=
      h2 f (List.mem_cons_self _ _) h1
    have hstep : filter_step_state false f = true := by
      simp [filter_step_state, h1, hres]
    simp only [filterLines, hstep, if_true]
    rw [filterLines_all_res r (fun l hl hh => h2 l (List.mem_cons_of_mem _ hl) hh)]
    rfl

theorem get_code_diff_drops_all_resource_w :
    get_code_diff_filter ("diff --git a/x.png b/x.png\nBinary files differ".toList) = [] :=
  get_code_diff_drops_all_resource ("diff --git a/x.png b/x.png\nBinary files differ".toList)
    (by decide) (by decide)

/-- Claim C6: any path that starts with one of the resource directory
prefixes as a plain string prefix is classified as a resource file, even
when the prefix does not end at a path-segment boundary. -/
theorem is_resource_file_dir (p : List Char)
    (h : ∃ d ∈ resource_dirs, startsWith d p = true) :
    is_resource_file p = true := by
  unfold is_resource_file
  by_cases hext : resource_extensions.contains ((extOf p).map Char.toLower) = true
  · rw [hext, if_pos rfl]
  · rw [Bool.not_eq_true] at hext
    rw [hext]
    simp only [Bool.false_eq_true, if_false]
    exact List.any_eq_true.mpr h

theorem is_resource_file_dir_w : is_resource_file ("LibraryXYZ/a.txt".toList) = true :=
  is_resource_file_dir ("LibraryXYZ/a.txt".toList)
    ⟨"Library".toList, by decide, by decide⟩

/-- Claim C7: any path whose lower-cased splitext extension is in the
resource extension denylist is classified as a resource file, regardless of
the directory it is under. -/
theorem is_resource_file_ext (p : List Char)
    (h : resource_extensions.contains ((extOf p).map Char.toLower) = true) :
    is_resource_file p = true := by
  unfold is_resource_file
  rw [h, if_pos rfl]

theorem is_resource_file_ext_w : is_resource_file ("docs/Photo.PNG".toList) = true :=
  is_resource_file_ext ("docs/Photo.PNG".toList) (by decide)

/-- Claim C8: when the text already fits (length at most maxLen) the
paginator returns exactly the one-element list holding the text. -/
theorem split_review_short (text : List Char) (maxLen : Nat)
    (h : text.length ≤ maxLen) :
    split_review_into_messages text maxLen = [text] := by
  unfold split_review_into_messages
  have hle : ¬ maxLen < text.length := by omega
  cases e : text.length with
  | zero => simp [splitGo]
  | succ n => simp [splitGo, hle]

theorem split_review_short_w :
    ("abc".toList).length ≤ 5 ∧ split_review_into_messages ("abc".toList) 5 = ["abc".toList] :=
  ⟨by decide, split_review_short ("abc".toList) 5 (by decide)⟩

/-- Claim C9: in main's push branch, a base revision that is absent, empty,
or merely starts with the seven-character prefix '0000000' (not only the
full forty-zero sentinel) makes the run stop at the noBase early return (or
at the even earlier deleted-branch return), so the diff fetch — and hence
every notification, which can only follow a fetch — is never attempted. -/
theorem push_zero_prefix_no_fetch (p : PushPayload) (token_ok : Bool)
    (h : p.before = none ∨ p.before = some [] ∨
        ∃ b, p.before = some b ∧ startsWith zeros7 b = true) :
    push_stage p token_ok ≠ PushStop.fetchDiff := by
  unfold push_stage
  by_cases hd : p.deleted = true
  · simp [hd]
  · simp only [Bool.not_eq_true] at hd
    rcases h with h | h | ⟨b, hb, hpre⟩
    · simp [hd, h]
    · simp [hd, h]
    · simp [hd, hb, hpre]

theorem push_zero_prefix_no_fetch_w :
    push_stage (PushPayload.mk false (some ("0000000abc".toList)) (some Unit.unit)) true
      ≠ PushStop.fetchDiff :=
  push_zero_prefix_no_fetch
    (PushPayload.mk false (some ("0000000abc".toList)) (some Unit.unit)) true
    (Or.inr (Or.inr ⟨"0000000abc".toList, rfl, by decide⟩))

/-- Claim C10: the paginator can emit empty-string chunks.  A text beginning
with a line break yields an empty first chunk, and a text of exactly maxLen
non-break characters followed only by whitespace yields an empty final
chunk; both example inputs are longer than maxLen. -/
theorem split_review_emits_empty_chunks :
    (4 < ("\nabcde".toList).length
      ∧ split_review_into_messages ("\nabcde".toList) 4
          = [[], "abcd".toList, "e".toList])
    ∧ (4 < ("abcd \t ".toList).length
      ∧ split_review_into_messages ("abcd \t ".toList) 4 = ["abcd".toList, []]) := by
  decide
